import Mathlib

/-!
Shallow embedding of the notetaker-mcp core (note store, metadata merge,
search-index guards, link tracker, path validation) and proofs about it.

Sources embedded:
- `src/noteService.ts` (sanitizeTitle, getNote, saveNote, deleteNote, metadata merge)
- `packages/mcp-server/src/noteLinkService.ts` (parseNoteLinks, extractOutgoingLinks,
  isValidLinkTarget, LinkTracker, validateNotePath, mcp-server getNote/saveNote/deleteNote)
- `src/searchService.ts` (SearchService guards and document bookkeeping)

Strings are processed as `List Char`; JavaScript `Map`/`Set` are modelled as
insertion-ordered association lists / duplicate-free lists, which matches the
iteration order of the originals.
-/

namespace Notetaker

/-! ## JavaScript string primitives -/

/-- The JavaScript whitespace class: the characters matched by `\s` in a JS
regular expression, which is also the set stripped by `String.prototype.trim`. -/
def isJsWhitespace (c : Char) : Bool :=
  let n := c.toNat
  (0x09 ≤ n && n ≤ 0x0d) || n = 0x20 || n = 0xa0 || n = 0x1680 ||
  (0x2000 ≤ n && n ≤ 0x200a) || n = 0x2028 || n = 0x2029 || n = 0x202f ||
  n = 0x205f || n = 0x3000 || n = 0xfeff

/-- Strip leading and trailing JS whitespace from a character list:
the model of `String.prototype.trim`. -/
def trimCore (l : List Char) : List Char :=
  (((l.dropWhile isJsWhitespace).reverse.dropWhile isJsWhitespace)).reverse

/-- `String.prototype.trim`. -/
def jsTrim (s : String) : String :=
  ⟨trimCore s.data⟩

/-- `a.includes(b)` for strings: `b` occurs as a contiguous substring of `a`. -/
def containsSub (l sub : List Char) : Bool :=
  l.tails.any (fun t => sub.isPrefixOf t)

/-! ## JavaScript collections

`Map<string, V>` keeps unique keys in insertion order; we model it as an
association list where `set` overwrites the first (hence only) occurrence in
place and `delete` removes it.  `Set<string>` keeps unique elements in
insertion order; we model it as a duplicate-free list where `add` appends a
new element and `delete` filters it out. -/

def mapGet (m : List (String × α)) (k : String) : Option α :=
  match m with
  | [] => none
  | (k', v) :: rest => if k' = k then some v else mapGet rest k

/-- `Map.prototype.set`: overwrite in place if the key is present, else append. -/
def mapSet (m : List (String × α)) (k : String) (v : α) : List (String × α) :=
  match m with
  | [] => [(k, v)]
  | (k', v') :: rest => if k' = k then (k, v) :: rest else (k', v') :: mapSet rest k v

/-- `Map.prototype.delete`. -/
def mapDelete (m : List (String × α)) (k : String) : List (String × α) :=
  m.filter (fun kv => kv.1 ≠ k)

/-- `Set.prototype.add`. -/
def setAdd (s : List String) (x : String) : List String :=
  if x ∈ s then s else s ++ [x]

/-- `Set.prototype.delete` (a JS set holds no duplicates, so filtering is
exactly removal of the element). -/
def setDelete (s : List String) (x : String) : List String :=
  s.filter (fun y => y ≠ x)

/-- `new Set(xs)` for an array `xs`: deduplicate keeping first occurrences. -/
def setOfList (xs : List String) : List String :=
  xs.foldl setAdd []


/-! ## `sanitizeTitle` (src/noteService.ts)

`title.replace(/[^a-zA-Z0-9\s\-_]/g, "").trim()` -/

/-- The character class `[a-zA-Z0-9\s\-_]` of `sanitizeTitle`'s regex. -/
def isSafeTitleChar (c : Char) : Bool :=
  ('a' ≤ c && c ≤ 'z') || ('A' ≤ c && c ≤ 'Z') || ('0' ≤ c && c ≤ '9') ||
  isJsWhitespace c || c = '-' || c = '_'

/-- Strip every character outside the safe class, then trim. -/
def sanitizeCore (l : List Char) : List Char :=
  trimCore (l.filter isSafeTitleChar)

/-- `sanitizeTitle` from src/noteService.ts. -/
def sanitizeTitle (t : String) : String :=
  ⟨sanitizeCore t.data⟩

/-- A title that is already safe: only characters from the allowed class,
and no leading or trailing whitespace. -/
def safeTitle (t : String) : Bool :=
  t.data.all isSafeTitleChar &&
  t.data.head?.all (fun c => !isJsWhitespace c) &&
  t.data.getLast?.all (fun c => !isJsWhitespace c)

/-! ## `parseNoteLinks` (packages/mcp-server/src/noteLinkService.ts)

The scan of `/\[\[([^\]|]+)(?:\|([^\]]+))?\]\]/g` over the content.  Both
character classes exclude the character that ends the group, so the regex
engine's greedy matching coincides with maximal munch and the scan below is
exactly the sequence of matches `exec` produces. -/

structure NoteLink where
  target : String
  displayText : Option String
  startPos : Nat
  endPos : Nat
deriving DecidableEq

/-- Try to match `\[\[([^\]|]+)(?:\|([^\]]+))?\]\]` at the head of the list;
returns the two capture groups and the length of the whole match. -/
def matchLink : List Char → Option (List Char × Option (List Char) × Nat)
  | '[' :: '[' :: rest =>
    let g1 := rest.takeWhile (fun c => !(c == ']') && !(c == '|'))
    if g1.isEmpty then none else
    match rest.drop g1.length with
    | '|' :: rest2 =>
      let g2 := rest2.takeWhile (fun c => !(c == ']'))
      if g2.isEmpty then none else
      (match rest2.drop g2.length with
       | ']' :: ']' :: _ => some (g1, some g2, g1.length + g2.length + 5)
       | _ => none)
    | ']' :: ']' :: _ => some (g1, none, g1.length + 4)
    | _ => none
  | _ => none

/-- The `exec` loop: at each position try a match; on success continue after
the match (the regex `lastIndex`), otherwise advance one character.  The jump
over the matched text is realised by the `skip` counter so that the recursion
is structural on the character list. -/
def scanLinksAux : List Char → Nat → Nat → List NoteLink
  | [], _, _ => []
  | c :: cs, 0, i =>
    (match matchLink (c :: cs) with
     | some (g1, g2, len) =>
       { target := ⟨trimCore g1⟩,
         displayText := g2.map (fun g => ⟨trimCore g⟩),
         startPos := i, endPos := i + len } :: scanLinksAux cs (len - 1) (i + len)
     | none => scanLinksAux cs 0 (i + 1))
  | _ :: cs, skip + 1, i => scanLinksAux cs skip i

/-- `parseNoteLinks` from noteLinkService.ts. -/
def parseNoteLinks (content : String) : List NoteLink :=
  scanLinksAux content.data 0 0

structure LinkRelationship where
  fromNote : String
  toNote : String
  displayText : Option String
deriving DecidableEq

/-- `extractOutgoingLinks` from noteLinkService.ts. -/
def extractOutgoingLinks (noteTitle : String) (content : String) : List LinkRelationship :=
  (parseNoteLinks content).map (fun link =>
    { fromNote := noteTitle, toNote := link.target, displayText := link.displayText })

/-- `isValidLinkTarget` from noteLinkService.ts: non-empty after trimming and
free of `..`, `/` and `\`. -/
def isValidLinkTarget (target : String) : Bool :=
  decide (0 < (trimCore target.data).length) &&
  !containsSub target.data ['.', '.'] &&
  !containsSub target.data ['/'] &&
  !containsSub target.data ['\\']

/-! ## `LinkTracker` (packages/mcp-server/src/noteLinkService.ts) -/

structure LinkTracker where
  relationships : List (String × List String)
  backlinks : List (String × List String)
deriving DecidableEq

def emptyTracker : LinkTracker := ⟨[], []⟩

/-- The loop body of `removeNoteLinks`: remove `noteTitle` from one target's
backlink set, deleting the set when it becomes empty. -/
def removeBacklinkStep (noteTitle : String) (bl : List (String × List String))
    (target : String) : List (String × List String) :=
  match mapGet bl target with
  | some targetBacklinks =>
    let tb := setDelete targetBacklinks noteTitle
    if tb.isEmpty then mapDelete bl target else mapSet bl target tb
  | none => bl

/-- `LinkTracker.removeNoteLinks`: drop the note's outgoing edges, remove the
note from its old targets' backlink sets (deleting sets that become empty),
and finally delete the note's own backlink entry. -/
def LinkTracker.removeNoteLinks (t : LinkTracker) (noteTitle : String) : LinkTracker :=
  let t1 : LinkTracker :=
    match mapGet t.relationships noteTitle with
    | some oldTargets =>
      let bl := oldTargets.foldl (removeBacklinkStep noteTitle) t.backlinks
      { relationships := mapDelete t.relationships noteTitle, backlinks := bl }
    | none => t
  { t1 with backlinks := mapDelete t1.backlinks noteTitle }

/-- The loop body of `updateNoteLinks`'s backlink update: create the target's
backlink set if missing and add `noteTitle` to it. -/
def addBacklinkStep (noteTitle : String) (bl : List (String × List String))
    (target : String) : List (String × List String) :=
  mapSet bl target (setAdd ((mapGet bl target).getD []) noteTitle)

/-- `LinkTracker.updateNoteLinks`: remove the old state for the note, then
record the parsed targets (as a set) and register the note in each target's
backlink set.  Nothing is recorded when the parse finds no links. -/
def LinkTracker.updateNoteLinks (t : LinkTracker) (noteTitle content : String) :
    LinkTracker :=
  let t := t.removeNoteLinks noteTitle
  let outgoingLinks := extractOutgoingLinks noteTitle content
  if 0 < outgoingLinks.length then
    let targets := setOfList (outgoingLinks.map (fun link => link.toNote))
    let t1 := { t with relationships := mapSet t.relationships noteTitle targets }
    let bl := targets.foldl (addBacklinkStep noteTitle) t1.backlinks
    { t1 with backlinks := bl }
  else t

/-- `LinkTracker.getOutgoingLinks`: `Array.from(relationships.get(t) ?? [])`. -/
def LinkTracker.getOutgoingLinks (t : LinkTracker) (noteTitle : String) : List String :=
  (mapGet t.relationships noteTitle).getD []

/-- `LinkTracker.getBacklinks`: `Array.from(backlinks.get(t) ?? [])`. -/
def LinkTracker.getBacklinks (t : LinkTracker) (noteTitle : String) : List String :=
  (mapGet t.backlinks noteTitle).getD []

/-! ## `SearchService` (src/searchService.ts)

The MiniSearch instance is modelled by its stored-document table (keyed by
`id = title`, in insertion order) plus the `isInitialized` flag.  The ranking
of an actual query is MiniSearch library code, so `search` takes the ranking
function as a parameter; every guard and all bookkeeping is the source's. -/

structure Note where
  title : String
  content : String
deriving DecidableEq

structure SearchState where
  isInitialized : Bool
  docs : List (String × Note)
deriving DecidableEq

/-- `miniSearch.has(id)`. -/
def hasDoc (docs : List (String × Note)) (id : String) : Bool :=
  (mapGet docs id).isSome

/-- `SearchService.addNote`: no-op when uninitialized, else discard any
document with the same id and add the note. -/
def SearchState.addNote (s : SearchState) (note : Note) : SearchState :=
  if !s.isInitialized then s
  else
    let docs := if hasDoc s.docs note.title then mapDelete s.docs note.title else s.docs
    { s with docs := docs ++ [(note.title, note)] }

/-- `SearchService.removeNote`: no-op when uninitialized, else discard the
document if present. -/
def SearchState.removeNote (s : SearchState) (noteTitle : String) : SearchState :=
  if !s.isInitialized then s
  else if hasDoc s.docs noteTitle then { s with docs := mapDelete s.docs noteTitle }
  else s

/-- `SearchService.updateNote`: no-op when uninitialized, else remove-then-add. -/
def SearchState.updateNote (s : SearchState) (note : Note) : SearchState :=
  if !s.isInitialized then s
  else (s.removeNote note.title).addNote note

/-- `SearchService.initialize`: clear and re-index, setting the flag. -/
def setupIndex (notes : List Note) : SearchState :=
  { isInitialized := true, docs := notes.map (fun n => (n.title, n)) }

/-- `SearchService.search`: empty result when uninitialized or the query is
blank, otherwise whatever the MiniSearch ranking (`rank`) returns. -/
def SearchState.search (rank : List (String × Note) → String → List Note)
    (s : SearchState) (query : String) : List Note :=
  if !s.isInitialized || (trimCore query.data).isEmpty then []
  else rank s.docs query

/-! ## Note store (src/noteService.ts)

Files are modelled as a map from filename stem (the sanitized title; the
constant `.md` suffix is elided) to the parsed file: a frontmatter block and
a body.  gray-matter's `matter`/`matter.stringify` round-trip is modelled by
storing the parsed form directly; YAML scalar values are modelled as strings,
whose only falsy value is `""` (matching `||` on the JS side). -/

structure Doc where
  data : List (String × String)
  content : String
deriving DecidableEq

/-- A note as the service passes it around: `{ title, content }` with the
content already split into frontmatter and body. -/
structure StoredNote where
  title : String
  doc : Doc
deriving DecidableEq

def RESERVED_FIELDS : List String := ["title", "createdAt", "updatedAt"]

namespace NoteService

/-- `getNote`: read the file at the sanitized path; absent files give `null`.
The returned object carries the caller's original (unsanitized) title. -/
def getNote (fs : List (String × Doc)) (noteTitle : String) : Option StoredNote :=
  match mapGet fs (sanitizeTitle noteTitle) with
  | some d => some ⟨noteTitle, d⟩
  | none => none

/-- `saveNote`: filter reserved fields from the incoming frontmatter, recover
`createdAt` from the existing file (falling back to `now` when absent or
falsy), stamp `updatedAt` and the sanitized title, and write the file. -/
def saveNote (fs : List (String × Doc)) (note : StoredNote) (now : String) :
    List (String × Doc) :=
  let sanitizedTitle := sanitizeTitle note.title
  let userMetadata := note.doc.data.filter (fun kv => !(RESERVED_FIELDS.contains kv.1))
  let existingNote := getNote fs note.title
  let existingFrontmatter := match existingNote with
    | some n => n.doc.data
    | none => []
  let createdAt := match mapGet existingFrontmatter "createdAt" with
    | some c => if c = "" then now else c
    | none => now
  let fullMetadata :=
    ("title", sanitizedTitle) :: ("createdAt", createdAt) :: ("updatedAt", now) ::
      userMetadata
  mapSet fs sanitizedTitle ⟨fullMetadata, note.doc.content⟩

/-- `deleteNote`: remove the file at the sanitized path; `false` when absent. -/
def deleteNote (fs : List (String × Doc)) (noteTitle : String) :
    List (String × Doc) × Bool :=
  let sanitizedTitle := sanitizeTitle noteTitle
  match mapGet fs sanitizedTitle with
  | some _ => (mapDelete fs sanitizedTitle, true)
  | none => (fs, false)

end NoteService

/-! ## Path resolution (packages/mcp-server/src/noteLinkService.ts)

`path.join` and `path.resolve` on an absolute base both normalize the path:
split on `/`, drop empty and `.` segments, and let `..` pop the previous
segment (clamped at the root).  `os.homedir()` is modelled as a fixed
absolute directory. -/

def NOTES_DIR : String := "/home/user/.notetaker-mcp/notes"

/-- Split a character list on `/`. -/
def splitSegsAux : List Char → List Char → List (List Char)
  | [], acc => [acc.reverse]
  | '/' :: rest, acc => acc.reverse :: splitSegsAux rest []
  | c :: rest, acc => splitSegsAux rest (c :: acc)

/-- Rejoin segments with `/`. -/
def joinSegs : List (List Char) → List Char
  | [] => []
  | [s] => s
  | s :: rest => s ++ '/' :: joinSegs rest

/-- Normalize an absolute path: drop empty and `.` segments, resolve `..`. -/
def normalizeAbs (p : String) : String :=
  let segs := (splitSegsAux p.data []).filter (fun s => !s.isEmpty && !(s == ['.']))
  let final := segs.foldl
    (fun acc seg => if seg == ['.', '.'] then acc.dropLast else acc ++ [seg])
    ([] : List (List Char))
  ⟨'/' :: joinSegs final⟩

/-- `validateNotePath`: join the title onto the notes root and require the
resolved path to start with the resolved notes root, else throw. -/
def validateNotePath (noteTitle : String) : Except String String :=
  let notePath := normalizeAbs (NOTES_DIR ++ "/" ++ noteTitle ++ ".md")
  let resolvedPath := normalizeAbs notePath
  let resolvedNotesDir := normalizeAbs NOTES_DIR
  if resolvedNotesDir.data.isPrefixOf resolvedPath.data then Except.ok notePath
  else Except.error "Invalid note path: path traversal detected"

/-! ## mcp-server note store (packages/mcp-server/src/noteLinkService.ts)

This variant validates the raw title instead of sanitizing it, stores files
keyed by the title itself, and synchronizes the search index and the link
tracker after every write.  `matter.stringify` is modelled concretely because
`updateNoteLinks` parses links out of the serialized file content. -/

structure ServerState where
  fs : List (String × Doc)
  search : SearchState
  tracker : LinkTracker
deriving DecidableEq

/-- `matter.stringify(content, data)` for plain string values. -/
def matterStringify (d : Doc) : String :=
  "---\n" ++ String.join (d.data.map (fun kv => kv.1 ++ ": " ++ kv.2 ++ "\n")) ++
    "---\n" ++ d.content

namespace McpServer

/-- mcp-server `getNote`: the try/catch converts both an invalid path and a
missing file into `null`. -/
def getNote (st : ServerState) (noteTitle : String) : Option StoredNote :=
  match validateNotePath noteTitle with
  | Except.error _ => none
  | Except.ok _ =>
    match mapGet st.fs noteTitle with
    | some d => some ⟨noteTitle, d⟩
    | none => none

/-- mcp-server `saveNote`: no try/catch, so a path-validation error
propagates; on success the file is written and the search index and link
tracker are updated with the exact serialized content. -/
def saveNote (st : ServerState) (note : StoredNote) (now : String) :
    Except String ServerState :=
  match validateNotePath note.title with
  | Except.error e => Except.error e
  | Except.ok _ =>
    let userMetadata := note.doc.data.filter (fun kv => !(RESERVED_FIELDS.contains kv.1))
    let existingFrontmatter := match mapGet st.fs note.title with
      | some d => d.data
      | none => []
    let createdAt := match mapGet existingFrontmatter "createdAt" with
      | some c => if c = "" then now else c
      | none => now
    let fullMetadata :=
      ("title", note.title) :: ("createdAt", createdAt) :: ("updatedAt", now) ::
        userMetadata
    let newDoc : Doc := ⟨fullMetadata, note.doc.content⟩
    let fileContent := matterStringify newDoc
    Except.ok
      { fs := mapSet st.fs note.title newDoc,
        search := st.search.updateNote ⟨note.title, fileContent⟩,
        tracker := st.tracker.updateNoteLinks note.title fileContent }

/-- mcp-server `deleteNote`: the try/catch converts an invalid path or a
missing file into `false`; on success the file is removed and both derived
stores are purged. -/
def deleteNote (st : ServerState) (noteTitle : String) : ServerState × Bool :=
  match validateNotePath noteTitle with
  | Except.error _ => (st, false)
  | Except.ok _ =>
    match mapGet st.fs noteTitle with
    | none => (st, false)
    | some _ =>
      ({ fs := mapDelete st.fs noteTitle,
         search := st.search.removeNote noteTitle,
         tracker := st.tracker.removeNoteLinks noteTitle }, true)

end McpServer

/-! ## Auxiliary definitions for the link-graph invariant -/

/-- Read a backlink set (empty when the entry is missing). -/
def blGet (bl : List (String × List String)) (k : String) : List String :=
  (mapGet bl k).getD []

/-- Link-graph states reachable by any sequence of note saves and deletions
(a startup rebuild is a sequence of saves from the empty state). -/
inductive Reachable : LinkTracker → Prop
  | empty : Reachable emptyTracker
  | save (t : LinkTracker) (title content : String) :
      Reachable t → Reachable (t.updateNoteLinks title content)
  | remove (t : LinkTracker) (title : String) :
      Reachable t → Reachable (t.removeNoteLinks title)

/-- The backlink index only records edges present in the forward adjacency. -/
def BacklinksSound (t : LinkTracker) : Prop :=
  ∀ T S, S ∈ t.getBacklinks T → T ∈ t.getOutgoingLinks S

/-! ## Lemmas about the collection and string models -/
/-! ### Basic lemmas about the collection models -/

theorem mapGet_mapSet_self (m : List (String × α)) (k : String) (v : α) :
    mapGet (mapSet m k v) k = some v := by
  induction m with
  | nil => simp [mapGet, mapSet]
  | cons kv rest ih =>
    obtain ⟨k', v'⟩ := kv
    by_cases h : k' = k <;> simp [mapGet, mapSet, h, ih]

theorem mapGet_mapSet_ne (m : List (String × α)) {k k' : String} (v : α)
    (h : k ≠ k') : mapGet (mapSet m k v) k' = mapGet m k' := by
  induction m with
  | nil => simp [mapGet, mapSet, h]
  | cons kv rest ih =>
    obtain ⟨k0, v0⟩ := kv
    by_cases h0 : k0 = k
    · subst h0; simp [mapGet, mapSet, h]
    · simp only [mapSet, if_neg h0]
      by_cases h1 : k0 = k'
      · simp [mapGet, h1]
      · simp [mapGet, h1, ih]

theorem mapDelete_cons (k0 : String) (v0 : α) (rest : List (String × α)) (k : String) :
    mapDelete ((k0, v0) :: rest) k =
      if k0 = k then mapDelete rest k else (k0, v0) :: mapDelete rest k := by
  by_cases h : k0 = k <;> simp [mapDelete, List.filter_cons, h]

theorem mapGet_mapDelete_self (m : List (String × α)) (k : String) :
    mapGet (mapDelete m k) k = none := by
  induction m with
  | nil => simp [mapGet, mapDelete]
  | cons kv rest ih =>
    obtain ⟨k0, v0⟩ := kv
    rw [mapDelete_cons]
    by_cases h : k0 = k
    · simpa [h] using ih
    · simpa [mapGet, h] using ih

theorem mapGet_mapDelete_ne (m : List (String × α)) {k k' : String}
    (h : k ≠ k') : mapGet (mapDelete m k) k' = mapGet m k' := by
  induction m with
  | nil => simp [mapGet, mapDelete]
  | cons kv rest ih =>
    obtain ⟨k0, v0⟩ := kv
    rw [mapDelete_cons]
    by_cases h0 : k0 = k
    · subst h0; simp [mapGet, h, ih]
    · by_cases h1 : k0 = k'
      · simp [mapGet, h0, h1, Ne.symm h]
      · simp [mapGet, h0, h1, ih]

theorem mem_setAdd {s : List String} {x y : String} :
    y ∈ setAdd s x ↔ y ∈ s ∨ y = x := by
  by_cases h : x ∈ s
  · simp only [setAdd, if_pos h]
    constructor
    · exact Or.inl
    · rintro (hy | rfl)
      · exact hy
      · exact h
  · simp [setAdd, if_neg h]

theorem mem_setDelete {s : List String} {x y : String} :
    y ∈ setDelete s x ↔ y ∈ s ∧ y ≠ x := by
  simp [setDelete]

theorem mem_setOfList {xs : List String} {y : String} :
    y ∈ setOfList xs ↔ y ∈ xs := by
  have aux : ∀ (xs acc : List String),
      y ∈ xs.foldl setAdd acc ↔ y ∈ acc ∨ y ∈ xs := by
    intro xs
    induction xs with
    | nil => intro acc; simp
    | cons x rest ih =>
      intro acc
      rw [List.foldl_cons, ih]
      constructor
      · rintro (h | h)
        · rcases mem_setAdd.mp h with h | rfl
          · exact Or.inl h
          · exact Or.inr (List.mem_cons_self _ _)
        · exact Or.inr (List.mem_cons_of_mem _ h)
      · rintro (h | h)
        · exact Or.inl (mem_setAdd.mpr (Or.inl h))
        · rcases List.mem_cons.mp h with rfl | h
          · exact Or.inl (mem_setAdd.mpr (Or.inr rfl))
          · exact Or.inr h
  simpa [setOfList] using (aux xs [])

/-! ### Lemmas about `dropWhile` and `trimCore` -/

theorem dropWhile_head_false {p : Char → Bool} {l ys : List Char} {y : Char}
    (h : l.dropWhile p = y :: ys) : p y = false := by
  induction l with
  | nil => simp [List.dropWhile] at h
  | cons a as ih =>
    rw [List.dropWhile_cons] at h
    by_cases hpa : p a = true
    · exact ih (by simpa [hpa] using h)
    · have hpa' : p a = false := by simpa using hpa
      obtain ⟨rfl, -⟩ : a = y ∧ as = ys := by
        simpa [hpa'] using h
      exact hpa'

theorem dropWhile_cons_of_false {p : Char → Bool} {a : Char} (l : List Char)
    (h : p a = false) : (a :: l).dropWhile p = a :: l := by
  simp [List.dropWhile_cons, h]

theorem dropWhile_idem (p : Char → Bool) (l : List Char) :
    (l.dropWhile p).dropWhile p = l.dropWhile p := by
  rcases hA : l.dropWhile p with - | ⟨y, ys⟩
  · rfl
  · exact dropWhile_cons_of_false ys (dropWhile_head_false hA)

theorem dropWhile_append_singleton {p : Char → Bool} {a : Char} (xs : List Char)
    (h : p a = false) : (xs ++ [a]).dropWhile p = xs.dropWhile p ++ [a] := by
  induction xs with
  | nil => simp [List.dropWhile, h]
  | cons x rest ih =>
    by_cases hx : p x = true
    · simpa [List.dropWhile_cons, hx] using ih
    · simp [List.dropWhile_cons, hx]

theorem mem_dropWhile {p : Char → Bool} {l : List Char} {y : Char}
    (h : y ∈ l.dropWhile p) : y ∈ l := by
  induction l with
  | nil => simp [List.dropWhile] at h
  | cons a as ih =>
    rw [List.dropWhile_cons] at h
    by_cases hpa : p a = true
    · simp only [hpa, if_true] at h
      exact List.mem_cons_of_mem _ (ih h)
    · simpa [hpa] using h

theorem mem_trimCore {l : List Char} {y : Char} (h : y ∈ trimCore l) : y ∈ l := by
  unfold trimCore at h
  rw [List.mem_reverse] at h
  have h1 := mem_dropWhile h
  rw [List.mem_reverse] at h1
  exact mem_dropWhile h1

theorem trimCore_idem (l : List Char) : trimCore (trimCore l) = trimCore l := by
  rcases hA : l.dropWhile isJsWhitespace with - | ⟨a, as⟩
  · simp [trimCore, hA, List.dropWhile]
  · have hpa : isJsWhitespace a = false := dropWhile_head_false hA
    have hl : trimCore l = a :: ((as.reverse.dropWhile isJsWhitespace).reverse) := by
      unfold trimCore
      rw [hA]
      simp only [List.reverse_cons]
      rw [dropWhile_append_singleton as.reverse hpa]
      simp
    rw [hl]
    unfold trimCore
    rw [dropWhile_cons_of_false _ hpa]
    simp only [List.reverse_cons, List.reverse_reverse]
    rw [dropWhile_append_singleton _ hpa, dropWhile_idem]
    simp

theorem sanitizeCore_all_safe {l : List Char} {y : Char}
    (h : y ∈ sanitizeCore l) : isSafeTitleChar y = true := by
  have := mem_trimCore h
  exact List.of_mem_filter this

theorem filter_eq_self_of_all {p : Char → Bool} {l : List Char}
    (h : ∀ y ∈ l, p y = true) : l.filter p = l :=
  List.filter_eq_self.mpr h

theorem sanitizeCore_idem (l : List Char) :
    sanitizeCore (sanitizeCore l) = sanitizeCore l := by
  have h1 : (sanitizeCore l).filter isSafeTitleChar = sanitizeCore l :=
    filter_eq_self_of_all (fun y hy => sanitizeCore_all_safe hy)
  show trimCore ((sanitizeCore l).filter isSafeTitleChar) = sanitizeCore l
  rw [h1]
  exact trimCore_idem (l.filter isSafeTitleChar)

theorem trimCore_eq_self {l : List Char}
    (hhead : ∀ c, l.head? = some c → isJsWhitespace c = false)
    (hlast : ∀ c, l.getLast? = some c → isJsWhitespace c = false) :
    trimCore l = l := by
  rcases l with - | ⟨a, as⟩
  · rfl
  · have hpa : isJsWhitespace a = false := hhead a rfl
    unfold trimCore
    rw [dropWhile_cons_of_false _ hpa]
    have hgl : (a :: as).getLast? = some ((a :: as).getLast (by simp)) := by
      rw [List.getLast?_eq_getLast]
    have hplast : isJsWhitespace ((a :: as).getLast (by simp)) = false :=
      hlast _ hgl
    have hdecomp : (a :: as) = (a :: as).dropLast ++ [(a :: as).getLast (by simp)] :=
      (List.dropLast_append_getLast (by simp)).symm
    calc ((a :: as).reverse.dropWhile isJsWhitespace).reverse
        = ((((a :: as).dropLast ++ [(a :: as).getLast (by simp)]).reverse.dropWhile
            isJsWhitespace)).reverse := by rw [← hdecomp]
      _ = (a :: as) := by
          simp only [List.reverse_append, List.reverse_cons, List.reverse_nil,
            List.nil_append, List.singleton_append]
          rw [dropWhile_cons_of_false _ hplast]
          simp only [List.reverse_cons, List.reverse_reverse]
          rw [← hdecomp]

theorem sanitizeCore_eq_self {l : List Char}
    (hall : ∀ y ∈ l, isSafeTitleChar y = true)
    (hhead : ∀ c, l.head? = some c → isJsWhitespace c = false)
    (hlast : ∀ c, l.getLast? = some c → isJsWhitespace c = false) :
    sanitizeCore l = l := by
  unfold sanitizeCore
  rw [filter_eq_self_of_all hall]
  exact trimCore_eq_self hhead hlast

/-! ## Claim theorems -/

/-- C1: evaluating the code on Scenario A.  Starting from an empty store with
initialized indexes, `put("Alpha")` with body `See [[Beta]]` followed by
`put("Beta")` with body `hi` leaves `outgoing("Alpha") = ["Beta"]` as claimed,
but `backlinks("Beta") = []` rather than the claimed `["Alpha"]`: saving
"Beta" runs `removeNoteLinks("Beta")`, whose final `backlinks.delete` wipes
Beta's own backlink set. -/
theorem scenarioA_backlinks_lost :
    ((McpServer.saveNote ⟨[], ⟨true, []⟩, emptyTracker⟩
        ⟨"Alpha", ⟨[], "See [[Beta]]"⟩⟩ "2024-01-01 10:00").bind
      (fun st1 => McpServer.saveNote st1 ⟨"Beta", ⟨[], "hi"⟩⟩ "2024-01-01 10:05")).map
      (fun st2 => (st2.tracker.getOutgoingLinks "Alpha", st2.tracker.getBacklinks "Beta"))
    = Except.ok (["Beta"], ([] : List String)) := by
  rfl

/-- C2: evaluating the code at a failing input.  The state reached from the
empty link graph by the two saves of Scenario A violates the claimed
invariant: `outgoing("Alpha")` contains "Beta" while `backlinks("Beta")` does
not contain "Alpha". -/
theorem reachable_state_breaks_backlink_iff :
    "Beta" ∈ LinkTracker.getOutgoingLinks
      (LinkTracker.updateNoteLinks
        (LinkTracker.updateNoteLinks emptyTracker "Alpha" "See [[Beta]]") "Beta" "hi")
      "Alpha" ∧
    "Alpha" ∉ LinkTracker.getBacklinks
      (LinkTracker.updateNoteLinks
        (LinkTracker.updateNoteLinks emptyTracker "Alpha" "See [[Beta]]") "Beta" "hi")
      "Beta" := by
  decide

/-- C6: `put` with title `../../etc/passwd` and body `x` succeeds, storing the
note under the sanitized filename stem `etcpasswd`, whose joined path stays
strictly inside the notes root; a subsequent `read` with the same dangerous
title returns the note with the original unsanitized title and the body `x`. -/
theorem saveNote_traversal_sanitized :
    sanitizeTitle "../../etc/passwd" = "etcpasswd" ∧
    (let fs1 := NoteService.saveNote [] ⟨"../../etc/passwd", ⟨[], "x"⟩⟩ "2024-01-01 10:00"
     (mapGet fs1 "etcpasswd").isSome = true ∧
     (NoteService.getNote fs1 "../../etc/passwd").map (fun n => (n.title, n.doc.content))
       = some ("../../etc/passwd", "x")) ∧
    (NOTES_DIR ++ "/").data.isPrefixOf
      (normalizeAbs (NOTES_DIR ++ "/" ++ "etcpasswd" ++ ".md")).data = true := by
  refine ⟨rfl, ⟨rfl, rfl⟩, by decide⟩

/-- C7, counterexample: for the traversal title `../../../../etc/passwd` the
path validator throws `InvalidPath`, yet `getNote` returns `null` and
`deleteNote` returns `false` — their try/catch converts the error into an
absent result instead of letting it propagate, contradicting the claim. -/
theorem invalidPath_swallowed_by_get_delete :
    validateNotePath "../../../../etc/passwd"
      = Except.error "Invalid note path: path traversal detected" ∧
    McpServer.getNote ⟨[], ⟨true, []⟩, emptyTracker⟩ "../../../../etc/passwd" = none ∧
    McpServer.deleteNote ⟨[], ⟨true, []⟩, emptyTracker⟩ "../../../../etc/passwd"
      = (⟨[], ⟨true, []⟩, emptyTracker⟩, false) := by
  refine ⟨rfl, rfl, rfl⟩

/-- C7, amended: when the resolved path for a title falls outside the notes
root, the `InvalidPath` error propagates unchanged through `put` only, while
`get` converts it into `null` and `delete` into `false`. -/
theorem invalidPath_propagation (st : ServerState) (doc : Doc) (now : String)
    (noteTitle e : String) (h : validateNotePath noteTitle = Except.error e) :
    McpServer.saveNote st ⟨noteTitle, doc⟩ now = Except.error e ∧
    McpServer.getNote st noteTitle = none ∧
    McpServer.deleteNote st noteTitle = (st, false) := by
  refine ⟨?_, ?_, ?_⟩ <;> simp [McpServer.saveNote, McpServer.getNote,
    McpServer.deleteNote, h]

/-- C7, witness for the amended theorem at the concrete traversal title. -/
theorem invalidPath_propagation_witness :
    McpServer.saveNote ⟨[], ⟨true, []⟩, emptyTracker⟩ ⟨"../a", ⟨[], "x"⟩⟩ "now"
      = Except.error "Invalid note path: path traversal detected" ∧
    McpServer.getNote ⟨[], ⟨true, []⟩, emptyTracker⟩ "../a" = none ∧
    McpServer.deleteNote ⟨[], ⟨true, []⟩, emptyTracker⟩ "../a"
      = (⟨[], ⟨true, []⟩, emptyTracker⟩, false) :=
  invalidPath_propagation ⟨[], ⟨true, []⟩, emptyTracker⟩ ⟨[], "x"⟩ "now" "../a"
    "Invalid note path: path traversal detected" (by rfl)

/-- C8: `search` returns the empty sequence whenever the query trims to
nothing or the index is uninitialized, regardless of the MiniSearch ranking
and of the indexed documents. -/
theorem search_empty_guard (rank : List (String × Note) → String → List Note)
    (s : SearchState) (query : String)
    (h : (trimCore query.data).isEmpty = true ∨ s.isInitialized = false) :
    s.search rank query = [] := by
  rcases h with h | h <;> simp [SearchState.search, h]

/-- C8, witness: a whitespace-only query on an initialized, non-empty index
returns `[]` even for a ranking that would return every note. -/
theorem search_empty_guard_witness :
    SearchState.search (fun docs _ => docs.map (fun kv => kv.2))
      ⟨true, [("A", ⟨"A", "body"⟩)]⟩ "   " = [] :=
  search_empty_guard (fun docs _ => docs.map (fun kv => kv.2))
    ⟨true, [("A", ⟨"A", "body"⟩)]⟩ "   " (Or.inl (by decide))

/-- C10: on an uninitialized index, `addNote`, `removeNote` and `updateNote`
all return the state completely unchanged (they are total functions, so no
error is raised, and no pending mutation is recorded anywhere). -/
theorem uninitialized_mutations_discarded (s : SearchState) (n : Note) (t : String)
    (h : s.isInitialized = false) :
    s.addNote n = s ∧ s.removeNote t = s ∧ s.updateNote n = s := by
  refine ⟨?_, ?_, ?_⟩ <;>
    simp [SearchState.addNote, SearchState.removeNote, SearchState.updateNote, h]

/-- C10, witness: a concrete uninitialized state with a non-empty document
table is untouched by all three mutations. -/
theorem uninitialized_mutations_discarded_witness :
    SearchState.addNote ⟨false, [("X", ⟨"X", "old"⟩)]⟩ ⟨"Y", "new"⟩
        = ⟨false, [("X", ⟨"X", "old"⟩)]⟩ ∧
    SearchState.removeNote ⟨false, [("X", ⟨"X", "old"⟩)]⟩ "X"
        = ⟨false, [("X", ⟨"X", "old"⟩)]⟩ ∧
    SearchState.updateNote ⟨false, [("X", ⟨"X", "old"⟩)]⟩ ⟨"X", "new"⟩
        = ⟨false, [("X", ⟨"X", "old"⟩)]⟩ :=
  uninitialized_mutations_discarded ⟨false, [("X", ⟨"X", "old"⟩)]⟩ ⟨"X", "new"⟩ "X" rfl

/-- C9: title sanitization is idempotent (`sanitize ∘ sanitize = sanitize`),
a no-op on titles that are already safe (only allowed characters, no
surrounding whitespace), and deterministic (equal inputs give equal outputs). -/
theorem sanitizeTitle_deterministic_idempotent (t u : String) :
    sanitizeTitle (sanitizeTitle t) = sanitizeTitle t ∧
    (safeTitle t = true → sanitizeTitle t = t) ∧
    (t = u → sanitizeTitle t = sanitizeTitle u) := by
  refine ⟨congrArg String.mk (sanitizeCore_idem t.data), ?_, ?_⟩
  · intro h
    have h' := h
    simp only [safeTitle, Bool.and_eq_true, List.all_eq_true] at h'
    obtain ⟨⟨h1, h2⟩, h3⟩ := h'
    have hhead : ∀ c, t.data.head? = some c → isJsWhitespace c = false := by
      intro c hc
      rw [hc] at h2
      simpa [Option.all] using h2
    have hlast : ∀ c, t.data.getLast? = some c → isJsWhitespace c = false := by
      intro c hc
      rw [hc] at h3
      simpa [Option.all] using h3
    have hcore : sanitizeCore t.data = t.data :=
      sanitizeCore_eq_self h1 hhead hlast
    obtain ⟨data⟩ := t
    exact congrArg String.mk hcore
  · rintro rfl; rfl

/-- C9, witness: idempotence at the unsafe title `a/b c`, no-op at the safe
title `My Note-1_x`, determinism at `q`. -/
theorem sanitizeTitle_deterministic_idempotent_witness :
    sanitizeTitle (sanitizeTitle "a/b c") = sanitizeTitle "a/b c" ∧
    sanitizeTitle "My Note-1_x" = "My Note-1_x" ∧
    sanitizeTitle "q" = sanitizeTitle "q" :=
  ⟨(sanitizeTitle_deterministic_idempotent "a/b c" "a/b c").1,
   (sanitizeTitle_deterministic_idempotent "My Note-1_x" "My Note-1_x").2.1 (by decide),
   (sanitizeTitle_deterministic_idempotent "q" "q").2.2 rfl⟩

theorem mapGet_filter_reserved {l : List (String × String)} {k : String}
    (hk : k ∉ RESERVED_FIELDS) :
    mapGet (l.filter (fun kv => !(RESERVED_FIELDS.contains kv.1))) k = mapGet l k := by
  induction l with
  | nil => rfl
  | cons kv rest ih =>
    obtain ⟨k0, v0⟩ := kv
    rw [List.filter_cons]
    by_cases hmem : k0 ∈ RESERVED_FIELDS
    · have hne : k0 ≠ k := fun h => hk (h ▸ hmem)
      have hc : (!(RESERVED_FIELDS.contains (k0, v0).1)) = false := by
        simp [hmem]
      rw [hc, if_neg (by simp), ih]
      show mapGet rest k = if k0 = k then some v0 else mapGet rest k
      rw [if_neg hne]
    · have hc : (!(RESERVED_FIELDS.contains (k0, v0).1)) = true := by
        simp [hmem]
      rw [hc, if_pos rfl]
      show (if k0 = k then some v0
            else mapGet (rest.filter (fun kv => !(RESERVED_FIELDS.contains kv.1))) k)
          = (if k0 = k then some v0 else mapGet rest k)
      rw [ih]

/-- C4: after any `put`, `updatedAt` in the stored header is the write
timestamp; `createdAt` equals the write timestamp when no file existed at the
resolved path, and is preserved from the existing header otherwise (the
existing value is kept verbatim whenever it is present and non-empty — every
header ever written by `saveNote` stores a non-empty timestamp there). -/
theorem saveNote_createdAt_invariant (fs : List (String × Doc)) (note : StoredNote)
    (now : String) :
    ∃ d, mapGet (NoteService.saveNote fs note now) (sanitizeTitle note.title) = some d ∧
      mapGet d.data "updatedAt" = some now ∧
      (mapGet fs (sanitizeTitle note.title) = none →
        mapGet d.data "createdAt" = some now) ∧
      (∀ d0 c, mapGet fs (sanitizeTitle note.title) = some d0 →
        mapGet d0.data "createdAt" = some c → c ≠ "" →
        mapGet d.data "createdAt" = some c) := by
  refine ⟨_, mapGet_mapSet_self _ _ _, ?_, ?_, ?_⟩
  · simp [mapGet]
  · intro h
    simp [NoteService.getNote, h, mapGet]
  · intro d0 c h0 hc0 hne0
    simp [NoteService.getNote, h0, mapGet, hc0, hne0]

/-- C4, witness: updating an existing note keeps its stored `createdAt` and
refreshes `updatedAt`; the hypotheses are discharged at a concrete store. -/
theorem saveNote_createdAt_invariant_witness :
    ∃ d, mapGet (NoteService.saveNote
        [("n", ⟨[("title", "n"), ("createdAt", "2020-01-01 00:00"),
                 ("updatedAt", "2020-01-01 00:00")], "old"⟩)]
        ⟨"n", ⟨[], "new"⟩⟩ "2024-02-02 09:00") (sanitizeTitle "n") = some d ∧
      mapGet d.data "updatedAt" = some "2024-02-02 09:00" ∧
      mapGet d.data "createdAt" = some "2020-01-01 00:00" := by
  obtain ⟨d, hd, hu, -, hpres⟩ := saveNote_createdAt_invariant
    [("n", ⟨[("title", "n"), ("createdAt", "2020-01-01 00:00"),
             ("updatedAt", "2020-01-01 00:00")], "old"⟩)]
    ⟨"n", ⟨[], "new"⟩⟩ "2024-02-02 09:00"
  exact ⟨d, hd, hu, hpres _ "2020-01-01 00:00" (by rfl) (by rfl) (by decide)⟩

/-- C5: reserved incoming keys are discarded before the merge (stripping them
from the incoming header does not change the result of `put` at all); the
stored `title` is the sanitized title; and for every non-reserved key the
stored header has exactly the incoming header's first binding for that key —
in particular a non-reserved key absent from the incoming header is absent
from the stored header, so the merge is a full replacement, not a patch. -/
theorem saveNote_header_replacement (fs : List (String × Doc)) (note : StoredNote)
    (now : String) :
    NoteService.saveNote fs note now =
      NoteService.saveNote fs
        ⟨note.title,
         ⟨note.doc.data.filter (fun kv => !(RESERVED_FIELDS.contains kv.1)),
          note.doc.content⟩⟩ now ∧
    ∃ d, mapGet (NoteService.saveNote fs note now) (sanitizeTitle note.title) = some d ∧
      mapGet d.data "title" = some (sanitizeTitle note.title) ∧
      (∀ k, k ∉ RESERVED_FIELDS → mapGet d.data k = mapGet note.doc.data k) := by
  constructor
  · have hff : (note.doc.data.filter (fun kv => !(RESERVED_FIELDS.contains kv.1))).filter
        (fun kv => !(RESERVED_FIELDS.contains kv.1)) =
        note.doc.data.filter (fun kv => !(RESERVED_FIELDS.contains kv.1)) :=
      List.filter_eq_self.mpr (fun a ha => (List.mem_filter.mp ha).2)
    simp only [NoteService.saveNote, hff]
  · refine ⟨_, mapGet_mapSet_self _ _ _, ?_, ?_⟩
    · simp [mapGet]
    · intro k hk
      have ht : k ≠ "title" := fun h => hk (by simp [RESERVED_FIELDS, h])
      have hc : k ≠ "createdAt" := fun h => hk (by simp [RESERVED_FIELDS, h])
      have hu : k ≠ "updatedAt" := fun h => hk (by simp [RESERVED_FIELDS, h])
      simp only [mapGet, if_neg (Ne.symm ht), if_neg (Ne.symm hc), if_neg (Ne.symm hu)]
      exact mapGet_filter_reserved hk

/-- C5, witness (Scenario D): a note stored with a `tags` key, re-`put` with an
empty incoming header, ends with no `tags` key; the stored title is the
sanitized title. -/
theorem saveNote_header_replacement_witness :
    ∃ d, mapGet (NoteService.saveNote
        [("N", ⟨[("title", "N"), ("createdAt", "2020-01-01 00:00"),
                 ("updatedAt", "2020-01-01 00:00"), ("tags", "a, b")], "old"⟩)]
        ⟨"N", ⟨[], "new"⟩⟩ "2024-01-01 10:00") (sanitizeTitle "N") = some d ∧
      mapGet d.data "title" = some (sanitizeTitle "N") ∧
      mapGet d.data "tags" = none := by
  obtain ⟨-, d, hd, ht, hpass⟩ := saveNote_header_replacement
    [("N", ⟨[("title", "N"), ("createdAt", "2020-01-01 00:00"),
             ("updatedAt", "2020-01-01 00:00"), ("tags", "a, b")], "old"⟩)]
    ⟨"N", ⟨[], "new"⟩⟩ "2024-01-01 10:00"
  refine ⟨d, hd, ht, ?_⟩
  rw [hpass "tags" (by decide)]
  rfl

theorem relGet_removeNoteLinks_self (t : LinkTracker) (x : String) :
    mapGet (t.removeNoteLinks x).relationships x = none := by
  unfold LinkTracker.removeNoteLinks
  rcases h : mapGet t.relationships x with - | oldTargets
  · simpa using h
  · simp [mapGet_mapDelete_self]

/-- C3, counterexample: the body `See [[x/y]]` parses to the target `x/y`,
which `isValidLinkTarget` rejects, yet after recording, `x/y` appears in
`outgoing("A")` and `A` appears in `backlinks("x/y")` — no validity filtering
happens on the recording path. -/
theorem invalid_target_recorded :
    isValidLinkTarget "x/y" = false ∧
    (let t := LinkTracker.updateNoteLinks emptyTracker "A" "See [[x/y]]"
     "x/y" ∈ t.getOutgoingLinks "A" ∧ "A" ∈ t.getBacklinks "x/y") := by
  decide

/-- C3, amended: recording a note's links never raises and applies no validity
check at all; after `updateNoteLinks`, `outgoing(title)` holds exactly the
trimmed `[[...]]` targets parsed from the content — valid or not. -/
theorem updateNoteLinks_records_parsed_targets (t : LinkTracker)
    (title content x : String) :
    x ∈ (t.updateNoteLinks title content).getOutgoingLinks title ↔
      x ∈ (parseNoteLinks content).map (fun l => l.target) := by
  unfold LinkTracker.updateNoteLinks LinkTracker.getOutgoingLinks
  by_cases hlen : 0 < (extractOutgoingLinks title content).length
  · rw [if_pos hlen]
    simp only [mapGet_mapSet_self, Option.getD_some]
    rw [mem_setOfList]
    simp [extractOutgoingLinks]
  · rw [if_neg hlen]
    have hnil : extractOutgoingLinks title content = [] := by
      rcases h : extractOutgoingLinks title content with - | ⟨a, rest⟩
      · rfl
      · rw [h] at hlen; simp at hlen
    have hparse : parseNoteLinks content = [] := by
      have := hnil
      unfold extractOutgoingLinks at this
      exact List.map_eq_nil_iff.mp this
    rw [relGet_removeNoteLinks_self]
    simp [hparse]

/-! ## Soundness of the backlink index over reachable link-graph states

The claimed equivalence `S ∈ backlinks(T) ↔ T ∈ outgoing(S)` fails (see the
counterexample above), but its forward direction is an invariant of every
reachable state: the backlink index never invents an edge. -/


theorem removeNoteLinks_eq (t : LinkTracker) (x : String) :
    t.removeNoteLinks x =
      match mapGet t.relationships x with
      | some oldTargets =>
        ⟨mapDelete t.relationships x,
         mapDelete (oldTargets.foldl (removeBacklinkStep x) t.backlinks) x⟩
      | none => ⟨t.relationships, mapDelete t.backlinks x⟩ := by
  rcases h : mapGet t.relationships x with - | oldTargets <;>
    simp [LinkTracker.removeNoteLinks, h]

theorem updateNoteLinks_eq (t : LinkTracker) (x content : String) :
    t.updateNoteLinks x content =
      if 0 < (extractOutgoingLinks x content).length then
        ⟨mapSet (t.removeNoteLinks x).relationships x
           (setOfList ((extractOutgoingLinks x content).map (fun l => l.toNote))),
         (setOfList ((extractOutgoingLinks x content).map (fun l => l.toNote))).foldl
           (addBacklinkStep x) (t.removeNoteLinks x).backlinks⟩
      else t.removeNoteLinks x := by
  rfl

theorem removeBacklinkStep_eq_none {x tgt : String} {bl : List (String × List String)}
    (hm : mapGet bl tgt = none) : removeBacklinkStep x bl tgt = bl := by
  unfold removeBacklinkStep
  rw [hm]

theorem removeBacklinkStep_eq_some {x tgt : String} {bl : List (String × List String)}
    {tb : List String} (hm : mapGet bl tgt = some tb) :
    removeBacklinkStep x bl tgt =
      if (setDelete tb x).isEmpty then mapDelete bl tgt
      else mapSet bl tgt (setDelete tb x) := by
  unfold removeBacklinkStep
  rw [hm]

theorem blGet_removeBacklinkStep_sub {x tgt T S : String}
    {bl : List (String × List String)}
    (h : S ∈ blGet (removeBacklinkStep x bl tgt) T) : S ∈ blGet bl T := by
  rcases hm : mapGet bl tgt with - | tb
  · rwa [removeBacklinkStep_eq_none hm] at h
  · rw [removeBacklinkStep_eq_some hm] at h
    by_cases he : (setDelete tb x).isEmpty
    · rw [if_pos he] at h
      by_cases hT : tgt = T
      · subst hT
        rw [blGet, mapGet_mapDelete_self] at h
        cases h
      · rwa [blGet, mapGet_mapDelete_ne _ hT] at h
    · rw [if_neg he] at h
      by_cases hT : tgt = T
      · subst hT
        rw [blGet, mapGet_mapSet_self] at h
        simp only [Option.getD_some] at h
        rw [blGet, hm]
        exact (mem_setDelete.mp h).1
      · rwa [blGet, mapGet_mapSet_ne _ _ hT] at h

theorem blGet_rmFold_sub {x T S : String} (targets : List String)
    (bl : List (String × List String))
    (h : S ∈ blGet (targets.foldl (removeBacklinkStep x) bl) T) : S ∈ blGet bl T := by
  induction targets generalizing bl with
  | nil => exact h
  | cons tgt rest ih => exact blGet_removeBacklinkStep_sub (ih _ h)

theorem notMem_blGet_removeBacklinkStep_self {x tgt : String}
    {bl : List (String × List String)} :
    x ∉ blGet (removeBacklinkStep x bl tgt) tgt := by
  rcases hm : mapGet bl tgt with - | tb
  · rw [removeBacklinkStep_eq_none hm, blGet, hm]
    simp
  · rw [removeBacklinkStep_eq_some hm]
    by_cases he : (setDelete tb x).isEmpty
    · rw [if_pos he, blGet, mapGet_mapDelete_self]
      simp
    · rw [if_neg he, blGet, mapGet_mapSet_self]
      simp only [Option.getD_some]
      intro hmem
      exact (mem_setDelete.mp hmem).2 rfl

theorem notMem_blGet_rmFold {x T : String} (targets : List String)
    (bl : List (String × List String)) (hT : T ∈ targets) :
    x ∉ blGet (targets.foldl (removeBacklinkStep x) bl) T := by
  induction targets generalizing bl with
  | nil => cases hT
  | cons tgt rest ih =>
    rcases List.mem_cons.mp hT with rfl | hT'
    · intro hmem
      exact notMem_blGet_removeBacklinkStep_self (blGet_rmFold_sub rest _ hmem)
    · exact ih _ hT'

theorem blGet_addBacklinkStep_sub {x tgt T S : String}
    {bl : List (String × List String)}
    (h : S ∈ blGet (addBacklinkStep x bl tgt) T) : S ∈ blGet bl T ∨ S = x := by
  unfold addBacklinkStep at h
  by_cases hT : tgt = T
  · subst hT
    rw [blGet, mapGet_mapSet_self] at h
    simp only [Option.getD_some] at h
    exact mem_setAdd.mp h
  · rw [blGet, mapGet_mapSet_ne _ _ hT] at h
    exact Or.inl h

theorem blGet_addFold_sub {x T S : String} (targets : List String)
    (bl : List (String × List String))
    (h : S ∈ blGet (targets.foldl (addBacklinkStep x) bl) T) :
    S ∈ blGet bl T ∨ S = x := by
  induction targets generalizing bl with
  | nil => exact Or.inl h
  | cons tgt rest ih =>
    rcases ih _ h with h' | rfl
    · exact blGet_addBacklinkStep_sub h'
    · exact Or.inr rfl

theorem blGet_addFold_other {x T : String} (targets : List String)
    (bl : List (String × List String)) (hT : T ∉ targets) :
    blGet (targets.foldl (addBacklinkStep x) bl) T = blGet bl T := by
  induction targets generalizing bl with
  | nil => rfl
  | cons tgt rest ih =>
    have hne : tgt ≠ T := fun h => hT (h ▸ List.mem_cons_self _ _)
    have hT' : T ∉ rest := fun h => hT (List.mem_cons_of_mem _ h)
    rw [List.foldl_cons, ih _ hT', blGet, addBacklinkStep,
      mapGet_mapSet_ne _ _ hne]
    rfl

theorem relGet_removeNoteLinks_other (t : LinkTracker) {x y : String} (h : y ≠ x) :
    mapGet (t.removeNoteLinks x).relationships y = mapGet t.relationships y := by
  rw [removeNoteLinks_eq]
  rcases hm : mapGet t.relationships x with - | oldTargets
  · rfl
  · exact mapGet_mapDelete_ne _ (Ne.symm h)

theorem blGet_removeNoteLinks_sub (t : LinkTracker) {x T S : String}
    (h : S ∈ blGet (t.removeNoteLinks x).backlinks T) : S ∈ blGet t.backlinks T := by
  rw [removeNoteLinks_eq] at h
  rcases hm : mapGet t.relationships x with - | oldTargets <;> rw [hm] at h
  · by_cases hT : x = T
    · subst hT
      rw [blGet, mapGet_mapDelete_self] at h
      cases h
    · rwa [blGet, mapGet_mapDelete_ne _ hT] at h
  · by_cases hT : x = T
    · subst hT
      rw [blGet, mapGet_mapDelete_self] at h
      cases h
    · rw [blGet, mapGet_mapDelete_ne _ hT] at h
      exact blGet_rmFold_sub oldTargets _ h

theorem notMem_blGet_removeNoteLinks {t : LinkTracker} {x T : String}
    (hrel : T ∈ (mapGet t.relationships x).getD []) :
    x ∉ blGet (t.removeNoteLinks x).backlinks T := by
  rw [removeNoteLinks_eq]
  rcases hm : mapGet t.relationships x with - | oldTargets
  · rw [hm] at hrel
    cases hrel
  · rw [hm] at hrel
    simp only [Option.getD_some] at hrel
    by_cases hT : x = T
    · subst hT
      rw [blGet, mapGet_mapDelete_self]
      simp
    · rw [blGet, mapGet_mapDelete_ne _ hT]
      exact notMem_blGet_rmFold oldTargets _ hrel

theorem backlinksSound_remove {t : LinkTracker} (x : String)
    (h : BacklinksSound t) : BacklinksSound (t.removeNoteLinks x) := by
  intro T S hS
  have hsub : S ∈ blGet t.backlinks T := blGet_removeNoteLinks_sub t hS
  have hTS : T ∈ t.getOutgoingLinks S := h T S hsub
  by_cases hSX : S = x
  · subst hSX
    exact absurd hS (notMem_blGet_removeNoteLinks hTS)
  · show T ∈ (mapGet (t.removeNoteLinks x).relationships S).getD []
    rw [relGet_removeNoteLinks_other t hSX]
    exact hTS

theorem backlinksSound_update {t : LinkTracker} (x content : String)
    (h : BacklinksSound t) : BacklinksSound (t.updateNoteLinks x content) := by
  have h' : BacklinksSound (t.removeNoteLinks x) := backlinksSound_remove x h
  rw [updateNoteLinks_eq]
  by_cases hlen : 0 < (extractOutgoingLinks x content).length
  · rw [if_pos hlen]
    intro T S hS
    rcases blGet_addFold_sub _ _ hS with hS' | rfl
    · by_cases hSX : S = x
      · subst hSX
        have h0 := h' T S hS'
        simp only [LinkTracker.getOutgoingLinks, relGet_removeNoteLinks_self,
          Option.getD_none, List.not_mem_nil] at h0
      · show T ∈ (mapGet (mapSet (t.removeNoteLinks x).relationships x _) S).getD []
        rw [mapGet_mapSet_ne _ _ (fun hEq => hSX hEq.symm)]
        exact h' T S hS'
    · show T ∈ (mapGet (mapSet (t.removeNoteLinks S).relationships S _) S).getD []
      rw [mapGet_mapSet_self]
      simp only [Option.getD_some]
      by_contra hT
      have heq := blGet_addFold_other (x := S) _ ((t.removeNoteLinks S).backlinks) hT
      have hS2 : S ∈ blGet ((setOfList ((extractOutgoingLinks S content).map
          (fun l => l.toNote))).foldl (addBacklinkStep S)
          ((t.removeNoteLinks S).backlinks)) T := hS
      rw [heq] at hS2
      have h0 := h' T S hS2
      simp only [LinkTracker.getOutgoingLinks, relGet_removeNoteLinks_self,
        Option.getD_none, List.not_mem_nil] at h0
  · rw [if_neg hlen]
    exact h'

/-- In every link-graph state reachable by saves, deletions and rebuilds, the
backlink index is sound: `S ∈ backlinks(T)` implies `T ∈ outgoing(S)`.  This
is the direction of the spec's bidirectional invariant that the code does
maintain. -/
theorem reachable_backlinksSound {t : LinkTracker} (h : Reachable t) :
    BacklinksSound t := by
  induction h with
  | empty =>
    intro T S hS
    cases hS
  | save t title content _ ih => exact backlinksSound_update title content ih
  | remove t title _ ih => exact backlinksSound_remove title ih

end Notetaker
